import Mathlib

/-!
Verification development for the Captureit repository (a personal
bookmarking/capture tool).  The definitions below are a shallow embedding of
the metadata-enrichment pipeline of src/src/App.jsx and of the metadata proxy
server src/server/metadata-proxy.js.  JavaScript strings are modelled as
Lean strings (lists of Unicode scalar values); the ASCII-only regex classes
used by the source are modelled by explicit character predicates, and the
case-conversion functions are modelled on the basic-latin range (the only
range the relevant regexes can see).
-/

namespace Captureit

/-! ### Character primitives (JS regex classes and case maps) -/
/-- ASCII uppercase letter test, the character class A-Z. -/
def isUpperAscii (c : Char) : Bool := decide (65 ≤ c.toNat ∧ c.toNat ≤ 90)


/-- ASCII lowercase letter test, the character class a-z. -/
def isLowerAscii (c : Char) : Bool := decide (97 ≤ c.toNat ∧ c.toNat ≤ 122)


/-- ASCII digit test, the character class 0-9. -/
def isDigitAscii (c : Char) : Bool := decide (48 ≤ c.toNat ∧ c.toNat ≤ 57)


/-- The JS regex class backslash-w: ASCII letters, digits and underscore. -/
def jsWordChar (c : Char) : Bool :=
  isUpperAscii c || isLowerAscii c || isDigitAscii c || c = '_'


/-- The JS regex class backslash-s restricted to its ASCII members
(space, tab, newline, vertical tab, form feed, carriage return). -/
def jsSpace (c : Char) : Bool := decide (c.toNat = 32 ∨ (9 ≤ c.toNat ∧ c.toNat ≤ 13))


/-- JS String.toLowerCase modelled on the basic-latin letters
(all characters the pipeline's regexes can act on). -/
def jsToLower (c : Char) : Char :=
  if isUpperAscii c then Char.ofNat (c.toNat + 32) else c


/-- JS String.toUpperCase on a single character, modelled on basic latin;
this is exactly what the capitalization regex replacement applies to the
backslash-w characters it matches. -/
def jsToUpper (c : Char) : Char :=
  if isLowerAscii c then Char.ofNat (c.toNat - 32) else c


/-- Lowercase every character of a list (JS String.toLowerCase). -/
def toLowerL (l : List Char) : List Char := l.map jsToLower


/-! ### Generic list-of-characters operations used by the pipeline -/
/-- Literal list matching: does pat occur at the head of l. -/
def isPre : List Char → List Char → Bool
  | [], _ => true
  | _ :: _, [] => false
  | p :: ps, c :: cs => p = c && isPre ps cs


/-- Matching of one JS regex pattern character: the source builds patterns
from hostname labels, where a dot is the regex wildcard (any character but
newline) and every other character that survives the validity check below is
literal. -/
def patCharMatches (p c : Char) : Bool := if p = '.' then !(c = '\n') else p = c


/-- Does the (dot-wildcard) pattern match a prefix of the text. -/
def patMatchesPre : List Char → List Char → Bool
  | [], _ => true
  | _ :: _, [] => false
  | p :: ps, c :: cs => patCharMatches p c && patMatchesPre ps cs


/-- One global-regex replacement pass with the empty replacement string:
non-overlapping matches are removed left to right, scanning resumes right
after each match (JS String.replace with the g flag).  Fuel is the length of
the text; each step consumes at least one character. -/
def replaceSubFuel (pat : List Char) : Nat → List Char → List Char
  | _, [] => []
  | 0, l => l
  | fuel + 1, c :: cs =>
    if patMatchesPre pat (c :: cs) then
      replaceSubFuel pat fuel (cs.drop (pat.length - 1))
    else
      c :: replaceSubFuel pat fuel cs


/-- Remove every occurrence of a nonempty pattern (JS replace(new RegExp(site, g), empty)). -/
def replaceSubAll (pat l : List Char) : List Char := replaceSubFuel pat l.length l


/-- Characters that make `new RegExp(site)` either throw or act as
non-literal syntax (other than the dot wildcard, which is modelled). -/
def regexMetaChar (c : Char) : Bool :=
  c = '\\' || c = '^' || c = '$' || c = '|' || c = '?' || c = '*' || c = '+' ||
  c = '(' || c = ')' || c = '[' || c = ']' || c = Char.ofNat 123 || c = Char.ofNat 125


/-- Word-bounded occurrence test at the head of rest: the word (which in the
source always begins and ends with word characters) matches literally and the
character following it, if any, is not a word character.  The boundary on the
left is checked by the caller via the previous-character flag. -/
def wordBoundedAt (w rest : List Char) : Bool :=
  isPre w rest &&
    (match rest.drop w.length with
     | [] => true
     | d :: _ => !jsWordChar d)


/-- Remove the whole-word occurrences of w (JS replace of backslash-b w
backslash-b with the g flag).  prevWord records whether the character
immediately before the current scan position in the original string is a word
character; after a removed match it is true because every removed word ends
in a word character. -/
def removeWordFuel (w : List Char) : Nat → Bool → List Char → List Char
  | _, _, [] => []
  | 0, _, l => l
  | fuel + 1, prevWord, c :: cs =>
    if !prevWord && !(w = []) && wordBoundedAt w (c :: cs) then
      removeWordFuel w fuel true (cs.drop (w.length - 1))
    else
      c :: removeWordFuel w fuel (jsWordChar c) cs


/-- Remove all whole-word occurrences of w from l. -/
def removeWholeWord (w l : List Char) : List Char := removeWordFuel w l.length false l


/-- Split on runs of whitespace dropping empty pieces: the composition
split(backslash-s+) followed by filter(Boolean) in the source.  The
accumulator holds the current token reversed. -/
def splitWsAux : List Char → List Char → List (List Char)
  | [], acc => if acc = [] then [] else [acc.reverse]
  | c :: cs, acc =>
    if jsSpace c then
      (if acc = [] then splitWsAux cs [] else acc.reverse :: splitWsAux cs [])
    else
      splitWsAux cs (c :: acc)


/-- Whitespace tokenization of a character list. -/
def tokenize (l : List Char) : List (List Char) := splitWsAux l []


/-- Keep the first occurrence of each token, dropping later duplicates
(the seen-set filter of the source). -/
def dedupTokensAux : List (List Char) → List (List Char) → List (List Char)
  | _, [] => []
  | seen, t :: ts =>
    if t ∈ seen then dedupTokensAux seen ts else t :: dedupTokensAux (t :: seen) ts


/-- Join tokens with single spaces (Array.prototype.join with a space). -/
def joinSpace : List (List Char) → List Char
  | [] => []
  | [t] => t
  | t :: ts => t ++ ' ' :: joinSpace ts


/-- Collapse each maximal run of whitespace to a single space
(JS replace(backslash-s+, space) with the g flag). -/
def collapseWsAux : Bool → List Char → List Char
  | _, [] => []
  | prevSp, c :: cs =>
    if jsSpace c then
      (if prevSp then collapseWsAux true cs else ' ' :: collapseWsAux true cs)
    else
      c :: collapseWsAux false cs


/-- Collapse whitespace runs in a list. -/
def collapseWs (l : List Char) : List Char := collapseWsAux false l


/-- Drop leading and trailing whitespace (JS String.trim). -/
def trimWs (l : List Char) : List Char :=
  (((l.dropWhile (fun c => jsSpace c)).reverse).dropWhile (fun c => jsSpace c)).reverse


/-- Capitalization pass of the source: replace(backslash-b backslash-w, g)
with a toUpperCase callback uppercases every word character that starts a
word-character run.  The flag records whether the previous original
character was a word character. -/
def capAux : Bool → List Char → List Char
  | _, [] => []
  | prevWord, c :: cs =>
    (if !prevWord && jsWordChar c then jsToUpper c else c) :: capAux (jsWordChar c) cs


/-- Capitalize the first word character of every word-character run. -/
def capitalizeWords (l : List Char) : List Char := capAux false l


/-! ### normalizeTitle (src/src/App.jsx lines 39-78) -/
/-- Step of normalizeTitle that removes everything from the first pipe to the
end of the string: JS replace of the pattern pipe-dot-star-dollar (no
multiline flag), which matches at the first pipe that has no later newline. -/
def removePipeSuffix : List Char → List Char
  | [] => []
  | c :: cs =>
    if c = '|' && !(cs.contains '\n') then [] else c :: removePipeSuffix cs


/-- Strip an anchored leading www. (the regex caret w w w dot). -/
def stripWwwAnchored (d : List Char) : List Char :=
  if isPre ['w', 'w', 'w', '.'] d then d.drop 4 else d


/-- Strip one trailing common TLD (the regex dot (com|in|co|org|net) dollar).
At most one of the five suffixes can match because their final characters
differ. -/
def stripTld (d : List Char) : List Char :=
  if isPre (String.toList ".com").reverse d.reverse then d.take (d.length - 4)
  else if isPre (String.toList ".in").reverse d.reverse then d.take (d.length - 3)
  else if isPre (String.toList ".co").reverse d.reverse then d.take (d.length - 3)
  else if isPre (String.toList ".org").reverse d.reverse then d.take (d.length - 4)
  else if isPre (String.toList ".net").reverse d.reverse then d.take (d.length - 4)
  else d


/-- The site token derived from the domain in normalizeTitle:
domain.replace(caret www dot, empty).replace(dot(com|in|co|org|net)dollar, empty). -/
def siteOf (domain : String) : List Char := stripTld (stripWwwAnchored domain.toList)


/-- Site-token removal step of normalizeTitle.  The source wraps
new RegExp(site, g) in try/catch and skips the step when construction
throws; an empty pattern matches only empty substrings and leaves the title
unchanged.  Patterns containing regex metacharacters are modelled as the
skipped step (for hostname-shaped inputs the only special character that
actually occurs is the dot, which is modelled as the wildcard). -/
def stripSiteTokens (domain : String) (title : List Char) : List Char :=
  if domain = "" then title
  else
    let site := siteOf domain
    if site = [] then title
    else if site.any regexMetaChar then title
    else replaceSubAll site title


/-- The fixed boilerplate word list of normalizeTitle. -/
def boilerplateWords : List String :=
  ["price", "images", "mileage", "specs", "features", "overview", "review",
   "reviews", "news", "blogs", "blog", "updated", "latest", "model", "india",
   "official", "on-road", "on road"]


/-- The separator character class of normalizeTitle.  The class in the
repository file as it stands on disk contains, besides hyphen, pipe, colon
and slash, the three characters U+00E2, U+20AC, U+00A2 (a doubly encoded
bullet point). -/
def sepChar (c : Char) : Bool :=
  c = '-' || c = '|' || c = Char.ofNat 226 || c = Char.ofNat 8364 ||
  c = Char.ofNat 162 || c = ':' || c = '/'


/-- Tail of normalizeTitle after the word-level rewriting: deduplicate the
whitespace tokens keeping first occurrences, join with single spaces,
collapse and trim spacing, reject the empty result, capitalize word starts,
and reject results shorter than three characters (source lines 61-77). -/
def normalizeCore (t5 : List Char) : Option String :=
  let ts := dedupTokensAux [] (tokenize t5)
  let t6 := trimWs (collapseWs (joinSpace ts))
  if t6 = [] then none
  else
    let t7 := capitalizeWords t6
    if t7.length < 3 then none else some (String.mk t7)


/-- normalizeTitle(raw, domain) from src/src/App.jsx lines 39-78: lowercase,
cut at the first pipe, strip the site token, remove boilerplate words as
whole words, turn separators into spaces, deduplicate whitespace tokens
keeping first occurrences, collapse and trim spacing, reject the empty
result, capitalize word starts, and reject results shorter than three
characters. -/
def normalizeTitle (raw domain : String) : Option String :=
  if raw = "" then none
  else
    let t1 := toLowerL raw.toList
    let t2 := removePipeSuffix t1
    let t3 := stripSiteTokens domain t2
    let t4 := boilerplateWords.foldl (fun t w => removeWholeWord w.toList t) t3
    let t5 := t4.map (fun c => if sepChar c then ' ' else c)
    normalizeCore t5


/-! ### JS truthiness and the or-else idiom on optional strings -/
/-- JS truthiness of a possibly absent string: null, undefined and the empty
string are falsy. -/
def jsTruthy : Option String → Bool
  | none => false
  | some s => !(s = "")


/-- The JS expression a or-else b on string-or-nullish values: a when a is
truthy, otherwise b. -/
def jsOrStr (a b : Option String) : Option String :=
  match a with
  | some s => if s = "" then b else some s
  | none => b


/-! ### Browser URL parsing (external built-in, modelled) -/
/-- Split a URL character list at the first scheme separator colon-slash-slash
with a nonempty scheme, returning the part after the separator. -/
def splitSchemeAux (acc : List Char) : List Char → Option (List Char)
  | [] => none
  | c :: cs =>
    if isPre [':', '/', '/'] (c :: cs) then
      (if acc = [] then none else some (cs.drop 2))
    else
      splitSchemeAux (c :: acc) cs


/-- Minimal model of the browser URL constructor for absolute
scheme://host/path URLs: yields (hostname, pathname), or none when parsing
fails (the constructor throws).  The hostname stops at a slash, question
mark, hash or colon (port); the pathname stops at a question mark or hash
and defaults to a single slash. -/
def urlParse (url : String) : Option (String × String) :=
  match splitSchemeAux [] url.toList with
  | none => none
  | some rest =>
    let host := rest.takeWhile (fun c => !(c = '/' || c = '?' || c = '#' || c = ':'))
    if host = [] then none
    else
      let tail := rest.dropWhile (fun c => !(c = '/' || c = '?' || c = '#'))
      let path :=
        match tail with
        | '/' :: _ => tail.takeWhile (fun c => !(c = '?' || c = '#'))
        | _ => ['/']
      some (String.mk host, String.mk path)


/-- Replace the first occurrence of a nonempty literal substring with the
empty string (JS String.replace with a plain string pattern). -/
def replaceFirstSub (pat : List Char) : List Char → List Char
  | [] => []
  | c :: cs =>
    if !(pat = []) && isPre pat (c :: cs) then cs.drop (pat.length - 1)
    else c :: replaceFirstSub pat cs


/-- Does the literal pattern occur anywhere in the text. -/
def containsSubL (pat : List Char) : List Char → Bool
  | [] => isPre pat []
  | c :: cs => isPre pat (c :: cs) || containsSubL pat cs


/-- Is suf a suffix of l (used for the case-insensitive extension regexes). -/
def isSuffixL (suf l : List Char) : Bool := isPre suf.reverse l.reverse


/-- Split on a single separator character, keeping empty pieces
(JS String.split with a one-character string). -/
def splitCharAux (sep : Char) (acc : List Char) : List Char → List (List Char)
  | [] => [acc.reverse]
  | c :: cs =>
    if c = sep then acc.reverse :: splitCharAux sep [] cs
    else splitCharAux sep (c :: acc) cs


/-- Split a character list on a separator character. -/
def splitOnCharL (sep : Char) (l : List Char) : List (List Char) := splitCharAux sep [] l


/-! ### getDomain and inferTitleFromUrl (src/src/App.jsx lines 9-16, 80-101) -/
/-- getDomain(url): hostname with the first occurrence of www. removed
(unanchored String.replace), or the fallback labels when URL parsing throws. -/
def getDomain (url : String) : String :=
  match urlParse url with
  | some (host, _) => String.mk (replaceFirstSub (String.toList "www.") host.toList)
  | none => if url = "" then "image" else "link"


/-- The noise vocabulary dropped from URL path segments by inferTitleFromUrl. -/
def inferIgnoreWords : List String :=
  ["blogs", "blog", "news", "reviews", "colors", "specs", "gallery", "images",
   "price", "posts", "category", "categories", "tag", "tags"]


/-- inferTitleFromUrl(url) from src/src/App.jsx lines 80-101: split the
pathname into nonempty segments, drop noise segments case-insensitively,
then normalize the last two segments (or the single remaining segment) with
hyphens and underscores turned into spaces; null when parsing fails or no
segment remains. -/
def inferTitleFromUrl (url : String) : Option String :=
  match urlParse url with
  | none => none
  | some (host, path) =>
    let parts := ((splitOnCharL '/' path.toList).filter (fun p => !(p = []))).filter
      (fun p => !((inferIgnoreWords.map String.toList).contains (toLowerL p)))
    if 2 ≤ parts.length then
      let brand := (parts.get? (parts.length - 2)).getD []
      let modelSeg := (parts.get? (parts.length - 1)).getD []
      let combined := (brand ++ ' ' :: modelSeg).map
        (fun c => if c = '-' || c = '_' then ' ' else c)
      normalizeTitle (String.mk combined) host
    else if parts.length = 1 then
      let candidate := ((parts.get? 0).getD []).map
        (fun c => if c = '-' || c = '_' then ' ' else c)
      normalizeTitle (String.mk candidate) host
    else none


/-! ### The item collection and addItem (src/src/App.jsx lines 622-683) -/
/-- A captured item: the fields of the newItem object built by addItem,
together with the user-edit flags and the transient flash marker that later
updates may add (absent fields of a JS object are modelled by the defaults). -/
structure Item where
  id : String
  bucketId : String
  url : String
  title : String
  domain : String
  image : Option String
  notes : String := ""
  price : String := ""
  status : String := "saved"
  isArchived : Bool := false
  visitCount : Nat := 0
  metaStatus : String
  metaAttempts : Nat := 0
  site : String
  createdAt : Nat
  userEditedTitle : Bool := false
  userEditedImage : Bool := false
  enrichFlash : Bool := false
deriving Repr, DecidableEq


/-- The mutable state addItem reads and writes: the item collection, the
in-memory pending-URL set (pendingUrlsRef) and the last-used bucket. -/
structure AppState where
  items : List Item
  pendingUrls : List String
  lastUsedBucketId : String
deriving Repr, DecidableEq


/-- The case-insensitive image-extension test of addItem
(the regex dot(jpeg|jpg|gif|png|webp)dollar with the i flag). -/
def hasImageExtension (content : String) : Bool :=
  [".jpeg", ".jpg", ".gif", ".png", ".webp"].any
    (fun suf => isSuffixL (toLowerL suf.toList) (toLowerL content.toList))


/-- addItem(content, targetBucketId, type, initialTitle, initialImage) from
src/src/App.jsx lines 622-683, as a transition on AppState.  now is
Date.now() at the call and newId the value generateId() returns if a fresh
item is created.  The result pairs the new state with the id the function
returns.  The background enrichment kicked off at the end is a separate
step (enrichStep below); the duplicate checks and the item construction are
modelled exactly in source order. -/
def addItem (content targetBucketId ty : String)
    (initialTitle initialImage : Option String)
    (st : AppState) (now : Nat) (newId : String) : AppState × String :=
  let isUrl := ty = "url" || content.startsWith "http"
  let site := if isUrl then getDomain content else ""
  let dup : Option String :=
    if isUrl then
      match (if st.pendingUrls.contains content then
               st.items.find? (fun i => i.url = content && i.bucketId = targetBucketId)
             else none) with
      | some already => some already.id
      | none =>
        match st.items.find? (fun i => i.url = content && i.bucketId = targetBucketId) with
        | some existing =>
          if now - existing.createdAt < 10000 || existing.metaStatus = "pending" then
            some existing.id
          else none
        | none => none
    else none
  match dup with
  | some oldId => (st, oldId)
  | none =>
    let pending2 := if isUrl then content :: st.pendingUrls else st.pendingUrls
    let inferredTitle := if isUrl then jsOrStr initialTitle (inferTitleFromUrl content) else none
    let normalizedInferred :=
      if isUrl then normalizeTitle ((jsOrStr inferredTitle (some "")).getD "") site else none
    let initialTitleToUse :=
      if isUrl then (jsOrStr normalizedInferred (some "Untitled link")).getD ""
      else "Pasted Image"
    let initialMetaDone := isUrl && (jsTruthy initialTitle || jsTruthy initialImage)
    let image : Option String :=
      if ty = "image" then some content
      else jsOrStr initialImage (if hasImageExtension content then some content else none)
    let newItem : Item :=
      { id := newId
        bucketId := targetBucketId
        url := if isUrl then content else ""
        title := initialTitleToUse
        domain := site
        image := image
        metaStatus := if initialMetaDone then "done" else (if isUrl then "pending" else "done")
        metaAttempts := 0
        site := site
        createdAt := now }
    ({ items := newItem :: st.items
       pendingUrls := pending2
       lastUsedBucketId := targetBucketId }, newId)


/-! ### enrichUrlMetadata (src/src/App.jsx lines 349-416) -/
/-- One cache entry and also the payload written on a fresh resolution:
the object { title, image, site }. -/
structure MetaPayload where
  title : Option String
  image : Option String
  site : String
deriving Repr, DecidableEq


/-- A partial item update (the updateObj literals passed to updateItem);
a none field is absent from the object and leaves the item field unchanged. -/
structure ItemUpdate where
  title : Option String := none
  image : Option String := none
  site : Option String := none
  metaStatus : Option String := none
  metaAttempts : Option Nat := none
  enrichFlash : Option Bool := none
deriving Repr, DecidableEq


/-- The object spread { ...item, ...updates } performed by updateItem. -/
def applyUpdate (i : Item) (u : ItemUpdate) : Item :=
  { i with
    title := match u.title with | some t => t | none => i.title
    image := match u.image with | some s => some s | none => i.image
    site := match u.site with | some s => s | none => i.site
    metaStatus := u.metaStatus.getD i.metaStatus
    metaAttempts := u.metaAttempts.getD i.metaAttempts
    enrichFlash := u.enrichFlash.getD i.enrichFlash }


/-- updateItem(id, updates) mapped over the item collection. -/
def updateItem (items : List Item) (id : String) (u : ItemUpdate) : List Item :=
  items.map (fun i => if i.id = id then applyUpdate i u else i)


/-- The favicon heuristic of enrichUrlMetadata: the case-insensitive regex
alternation of s2/favicons and favicon tests true exactly when the source
string contains favicon in any casing, because the first alternative
contains the second. -/
def isFaviconSrc : Option String → Bool
  | none => false
  | some s => !(s = "") && containsSubL (String.toList "favicon") (toLowerL s.toList)


/-- The title-overwrite guard shared by the cache and fresh branches of
enrichUrlMetadata (lines 361-363 and 386-388). -/
def shouldSetTitle (cur : Option Item) (inferred : Option String) : Bool :=
  match cur with
  | none => true
  | some i =>
    !i.userEditedTitle &&
      (i.title = "" || i.title = "Untitled link" || decide (inferred = some i.title) ||
       (!(i.title = "") && i.title.length < 3))


/-- The image-overwrite guard shared by the cache and fresh branches of
enrichUrlMetadata (lines 365-367 and 391-393). -/
def shouldSetImage (cur : Option Item) (pimage : Option String) : Bool :=
  match cur with
  | none => jsTruthy pimage
  | some i =>
    !i.userEditedImage &&
      ((!jsTruthy i.image && jsTruthy pimage) ||
       (jsTruthy i.image && isFaviconSrc i.image && jsTruthy pimage))


/-- The updateObj built on a successful enrichment (either branch): site and
metaStatus done always, title and image only when the per-field guards and
payload truthiness allow, plus the transient flash marker on the fresh
branch only. -/
def successUpdate (cur : Option Item) (payload : MetaPayload)
    (inferred : Option String) (flash : Bool) : ItemUpdate :=
  { site := some payload.site
    metaStatus := some "done"
    title := if shouldSetTitle cur inferred && jsTruthy payload.title then payload.title else none
    image := if shouldSetImage cur payload.image then payload.image else none
    enrichFlash := if flash then some true else none }


/-- What one call of enrichUrlMetadata does, as data: whether a network
resolution was attempted, the updateItem payload, the cache write and the
scheduled automatic-retry delay (if any). -/
structure EnrichOutcome where
  didFetch : Bool
  update : ItemUpdate
  cacheWrite : Option MetaPayload
  retryDelay : Option Nat
deriving Repr, DecidableEq


/-- enrichUrlMetadata from src/src/App.jsx lines 349-416.  cacheEntry is the
meta-cache lookup for the url, fetchResult the (title, image) pair produced
by fetchPageMetadata on a successful resolution (none when every strategy
failed, in which case the source returns null), hostname the parsed URL
hostname, cur the item looked up by id and inferred the value of
inferTitleFromUrl for the url. -/
def enrichStep (cacheEntry : Option MetaPayload)
    (fetchResult : Option (Option String × Option String))
    (hostname : String) (cur : Option Item) (inferred : Option String) : EnrichOutcome :=
  let attempts := match cur with | some i => i.metaAttempts | none => 0
  match cacheEntry with
  | some entry =>
    { didFetch := false
      update := successUpdate cur entry inferred false
      cacheWrite := none
      retryDelay := none }
  | none =>
    match fetchResult with
    | some (rt, ri) =>
      let payload : MetaPayload :=
        { title := rt, image := ri
          site := String.mk (replaceFirstSub (String.toList "www.") hostname.toList) }
      { didFetch := true
        update := successUpdate cur payload inferred true
        cacheWrite := some payload
        retryDelay := none }
    | none =>
      { didFetch := true
        update := { metaStatus := some "failed", metaAttempts := some (attempts + 1) }
        cacheWrite := none
        retryDelay := if attempts + 1 < 3 then some (2000 * (attempts + 1)) else none }


/-- Run the automatic-retry chain of a persistently failing resolution: every
attempt misses the cache and fails, each scheduled retry is taken, and the
backoff delays are collected.  Fuel bounds the number of attempts actually
made. -/
def autoRetryRun (hostname : String) (inferred : Option String) :
    Nat → Item → Item × List Nat
  | 0, i => (i, [])
  | fuel + 1, i =>
    let out := enrichStep none none hostname (some i) inferred
    let i2 := applyUpdate i out.update
    match out.retryDelay with
    | none => (i2, [])
    | some d =>
      let r := autoRetryRun hostname inferred fuel i2
      (r.1, d :: r.2)


/-! ### loadImageWithTimeout (src/src/App.jsx lines 120-134) -/
/-- The first event that settles the image probe: the timer firing, the
error callback, or the load callback with the natural dimensions.  The
settled flag in the source makes all later events no-ops, so the promise
outcome is a function of this first event. -/
inductive ImgEvent where
  | timeoutFired : ImgEvent
  | loadError : ImgEvent
  | loaded (naturalWidth naturalHeight : Nat) : ImgEvent
deriving Repr, DecidableEq


/-- loadImageWithTimeout(src, timeout, minWidth, minHeight): the promise
always resolves (never rejects or throws); it resolves true exactly when the
first settling event is a successful load whose dimensions meet both
minimums, and false on the timeout and error paths or when a dimension falls
short. -/
def loadImageWithTimeout (firstEvent : ImgEvent) (minWidth minHeight : Nat) : Bool :=
  match firstEvent with
  | .timeoutFired => false
  | .loadError => false
  | .loaded w h => decide (minWidth ≤ w) && decide (minHeight ≤ h)


/-! ### Raw-title candidate selection in the three extraction paths -/
/-- The direct-fetch extractor of fetchPageMetadata (lines 168-196): the raw
title is ogTitle or-else the title tag or-else the meta description; the
twitter:title candidate is never queried on this path. -/
def rawTitleDirect (og tw titleTag desc : Option String) : Option String :=
  jsOrStr (jsOrStr og titleTag) desc


/-- The read-proxy (r.jina.ai) fallback extractor of fetchPageMetadata
(lines 217-240): ogTitle or-else the title tag; neither twitter:title nor
the description is queried. -/
def rawTitleJina (og tw titleTag desc : Option String) : Option String :=
  jsOrStr og titleTag


/-- The proxy server src/server/metadata-proxy.js (lines 20-22 and 65):
og:title or-else twitter:title or-else the title tag; no description
fallback. -/
def rawTitleProxy (og tw titleTag desc : Option String) : Option String :=
  jsOrStr (jsOrStr (jsOrStr og tw) titleTag) none


/-- Modelled from the spec: the claimed uniform priority order og:title,
then twitter:title, then the title tag, then the meta description, for
comparison with the three extraction paths above. -/
def rawTitleSpecOrder (og tw titleTag desc : Option String) : Option String :=
  jsOrStr (jsOrStr (jsOrStr og tw) titleTag) desc


/-- The value of a chain of JS or-else operators over a candidate list: the
first truthy candidate, or the last candidate (possibly falsy) when none is
truthy. -/
def firstTruthy : List (Option String) → Option String
  | [] => none
  | [a] => a
  | a :: rest => jsOrStr a (firstTruthy rest)


/-! ### Observation helpers for the normalizeTitle theorems -/
/-- Check that every word character opening a word-character run is not an
ASCII lowercase letter, scanning with the previous-character word flag; this
is the capitalization pattern the source's boundary regex actually
produces. -/
def capBoundaryAux : Bool → List Char → Bool
  | _, [] => true
  | prevWord, c :: cs =>
    (!(!prevWord && jsWordChar c) || !isLowerAscii c) && capBoundaryAux (jsWordChar c) cs


/-- Boundary-capitalization property of a finished title. -/
def capBoundaryOk (s : String) : Bool := capBoundaryAux false s.toList


/-- The whitespace-delimited tokens of a finished title. -/
def titleTokens (s : String) : List (List Char) := tokenize s.toList


/-- Does the first ASCII letter of the token, if any, appear in uppercase
(the literal reading of the claim that the first letter of every word is
capitalized). -/
def tokenFirstLetterCap (tok : List Char) : Bool :=
  match tok.find? (fun c => isUpperAscii c || isLowerAscii c) with
  | none => true
  | some c => isUpperAscii c


/-- The claimed capitalization property: every word's first letter is
capitalized. -/
def firstLetterCapClaim (s : String) : Bool := (titleTokens s).all tokenFirstLetterCap


/-- Modelled from the spec: the site-token step as the spec words it, a
whole-word-only strip of the label, used to compare the claimed behavior
against the source's unbounded substring replacement. -/
def stripSiteTokensWholeWord (domain : String) (title : List Char) : List Char :=
  if domain = "" then title
  else
    let site := siteOf domain
    if site = [] then title
    else if site.any regexMetaChar then title
    else removeWholeWord site title


/-- Modelled from the spec: normalizeTitle with the whole-word site strip of
the spec's words in place of the source's substring replacement; every other
step is as in the source. -/
def normalizeTitleWholeWord (raw domain : String) : Option String :=
  if raw = "" then none
  else
    let t1 := toLowerL raw.toList
    let t2 := removePipeSuffix t1
    let t3 := stripSiteTokensWholeWord domain t2
    let t4 := boilerplateWords.foldl (fun t w => removeWholeWord w.toList t) t3
    let t5 := t4.map (fun c => if sepChar c then ' ' else c)
    normalizeCore t5


/-! ### Auxiliary lemmas about the pipeline operations -/
/-- Absence of ASCII uppercase letters in a character list. -/
def noUpperL (l : List Char) : Prop := ∀ c ∈ l, isUpperAscii c = false


/-! ### Concrete fixtures used by the witness theorems -/
/-- An item both of whose fields have been edited by the user. -/
def editedItem : Item :=
  { id := "i1", bucketId := "b1", url := "https://ex.com/a", title := "My Title",
    domain := "ex.com", image := some "https://img.ex/pic.png", metaStatus := "done",
    site := "ex.com", createdAt := 0, userEditedTitle := true, userEditedImage := true }


/-- A freshly created URL item awaiting enrichment. -/
def pendingItem : Item :=
  { id := "i2", bucketId := "b1", url := "https://ex.com/a", title := "Untitled link",
    domain := "ex.com", image := none, metaStatus := "pending", site := "ex.com",
    createdAt := 0 }


/-- The empty application state. -/
def emptyState : AppState :=
  { items := [], pendingUrls := [], lastUsedBucketId := "b1" }


/-- A state holding one recently saved pending item in bucket b1, with its
URL still in the pending set. -/
def otherBucketState : AppState :=
  { items := [{ id := "i1", bucketId := "b1", url := "https://ex.com/a", title := "T1",
                domain := "ex.com", image := none, metaStatus := "pending",
                site := "ex.com", createdAt := 999999 }]
    pendingUrls := ["https://ex.com/a"]
    lastUsedBucketId := "b1" }


/-! ### Lemmas and claim theorems -/

theorem toNat_ofNat_valid (n : Nat) (h : n < 55296) : (Char.ofNat n).toNat = n := by
  have hv : n.isValidChar := Or.inl h
  rw [Char.ofNat, dif_pos hv]
  rfl


theorem toNat_jsToLower (c : Char) :
    (jsToLower c).toNat = if isUpperAscii c then c.toNat + 32 else c.toNat := by
  unfold jsToLower
  by_cases h : isUpperAscii c = true
  · simp only [h, if_true]
    have hb : 65 ≤ c.toNat ∧ c.toNat ≤ 90 := by
      simpa [isUpperAscii] using h
    exact toNat_ofNat_valid _ (by omega)
  · simp [h]


theorem toNat_jsToUpper (c : Char) :
    (jsToUpper c).toNat = if isLowerAscii c then c.toNat - 32 else c.toNat := by
  unfold jsToUpper
  by_cases h : isLowerAscii c = true
  · simp only [h, if_true]
    have hb : 97 ≤ c.toNat ∧ c.toNat ≤ 122 := by
      simpa [isLowerAscii] using h
    exact toNat_ofNat_valid _ (by omega)
  · simp [h]


theorem char_eq_of_toNat_eq {a b : Char} (h : a.toNat = b.toNat) : a = b := by
  apply Char.ext
  exact UInt32.toNat.inj h


/-- Lowercasing never yields an ASCII uppercase letter. -/
theorem isUpperAscii_jsToLower (c : Char) : isUpperAscii (jsToLower c) = false := by
  have h := toNat_jsToLower c
  by_cases hu : isUpperAscii c = true
  · have hb : 65 ≤ c.toNat ∧ c.toNat ≤ 90 := by simpa [isUpperAscii] using hu
    simp only [hu, if_true] at h
    simp only [isUpperAscii, h]
    simp
    omega
  · simp only [hu, if_false, Bool.false_eq_true] at h
    simp only [isUpperAscii, h]
    simp only [isUpperAscii] at hu
    simpa [isUpperAscii] using hu


/-- Lowercasing an uppercased non-uppercase character recovers it. -/
theorem jsToLower_jsToUpper (c : Char) (h : isUpperAscii c = false) :
    jsToLower (jsToUpper c) = c := by
  by_cases hl : isLowerAscii c = true
  · have hb : 97 ≤ c.toNat ∧ c.toNat ≤ 122 := by simpa [isLowerAscii] using hl
    have h1 : (jsToUpper c).toNat = c.toNat - 32 := by
      rw [toNat_jsToUpper, if_pos hl]
    have h2 : isUpperAscii (jsToUpper c) = true := by
      simp only [isUpperAscii, h1]
      simp
      omega
    have h3 : (jsToLower (jsToUpper c)).toNat = c.toNat := by
      rw [toNat_jsToLower, if_pos h2, h1]
      omega
    exact char_eq_of_toNat_eq h3
  · have h1 : jsToUpper c = c := by unfold jsToUpper; simp [hl]
    have h2 : jsToLower c = c := by unfold jsToLower; simp [h]
    rw [h1, h2]


/-- Uppercasing preserves membership in the word-character class. -/
theorem jsWordChar_jsToUpper (c : Char) : jsWordChar (jsToUpper c) = jsWordChar c := by
  by_cases hl : isLowerAscii c = true
  · have hb : 97 ≤ c.toNat ∧ c.toNat ≤ 122 := by simpa [isLowerAscii] using hl
    have h1 : (jsToUpper c).toNat = c.toNat - 32 := by rw [toNat_jsToUpper, if_pos hl]
    have h2 : isUpperAscii (jsToUpper c) = true := by
      simp only [isUpperAscii, h1]; simp; omega
    simp [jsWordChar, h2, hl]
  · have h1 : jsToUpper c = c := by unfold jsToUpper; simp [hl]
    rw [h1]


/-- Uppercasing a word character never yields an ASCII lowercase letter. -/
theorem isLowerAscii_jsToUpper (c : Char) : isLowerAscii (jsToUpper c) = false ∨
    jsToUpper c = c := by
  by_cases hl : isLowerAscii c = true
  · left
    have hb : 97 ≤ c.toNat ∧ c.toNat ≤ 122 := by simpa [isLowerAscii] using hl
    have h1 : (jsToUpper c).toNat = c.toNat - 32 := by rw [toNat_jsToUpper, if_pos hl]
    simp only [isLowerAscii, h1]
    simp
    omega
  · right
    unfold jsToUpper
    simp [hl]


/-- Lowercasing preserves the whitespace class. -/
theorem jsSpace_jsToLower (c : Char) : jsSpace (jsToLower c) = jsSpace c := by
  by_cases hu : isUpperAscii c = true
  · have hb : 65 ≤ c.toNat ∧ c.toNat ≤ 90 := by simpa [isUpperAscii] using hu
    have h1 : (jsToLower c).toNat = c.toNat + 32 := by rw [toNat_jsToLower, if_pos hu]
    have hA : jsSpace (jsToLower c) = false := by
      simp only [jsSpace, h1, decide_eq_false_iff_not]
      omega
    have hB : jsSpace c = false := by
      simp only [jsSpace, decide_eq_false_iff_not]
      omega
    rw [hA, hB]
  · have h1 : jsToLower c = c := by unfold jsToLower; simp [hu]
    rw [h1]


theorem jsToLower_eq_self {c : Char} (h : isUpperAscii c = false) : jsToLower c = c := by
  unfold jsToLower
  simp [h]


theorem noUpperL_toLowerL (l : List Char) : noUpperL (toLowerL l) := by
  intro c hc
  rcases List.mem_map.mp hc with ⟨a, _, rfl⟩
  exact isUpperAscii_jsToLower a


theorem removePipeSuffix_subset (l : List Char) : ∀ c ∈ removePipeSuffix l, c ∈ l := by
  induction l with
  | nil => simp [removePipeSuffix]
  | cons a as ih =>
    intro c hc
    simp only [removePipeSuffix] at hc
    by_cases h : (a = '|' && !(as.contains '\n')) = true
    · rw [if_pos h] at hc
      simp at hc
    · rw [if_neg h] at hc
      rcases List.mem_cons.mp hc with hc | hc
      · simp [hc]
      · exact List.mem_cons_of_mem a (ih c hc)


theorem replaceSubFuel_subset (pat : List Char) :
    ∀ fuel l c, c ∈ replaceSubFuel pat fuel l → c ∈ l := by
  intro fuel
  induction fuel with
  | zero => intro l c hc; cases l <;> simpa [replaceSubFuel] using hc
  | succ n ih =>
    intro l c hc
    cases l with
    | nil => simpa [replaceSubFuel] using hc
    | cons a as =>
      simp only [replaceSubFuel] at hc
      by_cases h : patMatchesPre pat (a :: as) = true
      · rw [if_pos h] at hc
        exact List.mem_cons_of_mem a (List.drop_subset _ as (ih _ c hc))
      · rw [if_neg h] at hc
        rcases List.mem_cons.mp hc with hc | hc
        · simp [hc]
        · exact List.mem_cons_of_mem a (ih as c hc)


theorem removeWordFuel_subset (w : List Char) :
    ∀ fuel b l c, c ∈ removeWordFuel w fuel b l → c ∈ l := by
  intro fuel
  induction fuel with
  | zero => intro b l c hc; cases l <;> simpa [removeWordFuel] using hc
  | succ n ih =>
    intro b l c hc
    cases l with
    | nil => simpa [removeWordFuel] using hc
    | cons a as =>
      simp only [removeWordFuel] at hc
      by_cases h : (!b && !(w = []) && wordBoundedAt w (a :: as)) = true
      · rw [if_pos h] at hc
        exact List.mem_cons_of_mem a (List.drop_subset _ as (ih _ _ c hc))
      · rw [if_neg h] at hc
        rcases List.mem_cons.mp hc with hc | hc
        · simp [hc]
        · exact List.mem_cons_of_mem a (ih _ as c hc)


theorem splitWsAux_chars (l : List Char) :
    ∀ acc t, t ∈ splitWsAux l acc → ∀ c ∈ t, c ∈ l ∨ c ∈ acc := by
  induction l with
  | nil =>
    intro acc t ht c hc
    simp only [splitWsAux] at ht
    by_cases h : acc = []
    · rw [if_pos h] at ht; simp at ht
    · rw [if_neg h] at ht
      simp only [List.mem_singleton] at ht
      subst ht
      exact Or.inr (List.mem_reverse.mp hc)
  | cons a as ih =>
    intro acc t ht c hc
    simp only [splitWsAux] at ht
    by_cases hsp : jsSpace a = true
    · rw [if_pos hsp] at ht
      by_cases hA : acc = []
      · rw [if_pos hA] at ht
        rcases ih [] t ht c hc with h | h
        · exact Or.inl (List.mem_cons_of_mem a h)
        · simp at h
      · rw [if_neg hA] at ht
        rcases List.mem_cons.mp ht with ht | ht
        · subst ht; exact Or.inr (List.mem_reverse.mp hc)
        · rcases ih [] t ht c hc with h | h
          · exact Or.inl (List.mem_cons_of_mem a h)
          · simp at h
    · rw [if_neg hsp] at ht
      rcases ih (a :: acc) t ht c hc with h | h
      · exact Or.inl (List.mem_cons_of_mem a h)
      · rcases List.mem_cons.mp h with h | h
        · exact Or.inl (by simp [h])
        · exact Or.inr h


theorem dedupTokensAux_mem :
    ∀ seen l (x : List Char), x ∈ dedupTokensAux seen l → x ∈ l := by
  intro seen l
  induction l generalizing seen with
  | nil => simp [dedupTokensAux]
  | cons t ts ih =>
    intro x hx
    simp only [dedupTokensAux] at hx
    by_cases h : t ∈ seen
    · rw [if_pos h] at hx
      exact List.mem_cons_of_mem t (ih seen x hx)
    · rw [if_neg h] at hx
      rcases List.mem_cons.mp hx with hx | hx
      · simp [hx]
      · exact List.mem_cons_of_mem t (ih (t :: seen) x hx)


theorem dedupTokensAux_not_mem_seen :
    ∀ seen l (x : List Char), x ∈ dedupTokensAux seen l → x ∉ seen := by
  intro seen l
  induction l generalizing seen with
  | nil => simp [dedupTokensAux]
  | cons t ts ih =>
    intro x hx
    simp only [dedupTokensAux] at hx
    by_cases h : t ∈ seen
    · rw [if_pos h] at hx
      exact ih seen x hx
    · rw [if_neg h] at hx
      rcases List.mem_cons.mp hx with hx | hx
      · subst hx; exact h
      · intro hmem
        exact ih (t :: seen) x hx (List.mem_cons_of_mem t hmem)


theorem dedupTokensAux_nodup : ∀ seen l, (dedupTokensAux seen l).Nodup := by
  intro seen l
  induction l generalizing seen with
  | nil => simp [dedupTokensAux]
  | cons t ts ih =>
    simp only [dedupTokensAux]
    by_cases h : t ∈ seen
    · rw [if_pos h]; exact ih seen
    · rw [if_neg h]
      refine List.nodup_cons.mpr ⟨?_, ih (t :: seen)⟩
      intro hmem
      exact dedupTokensAux_not_mem_seen (t :: seen) ts t hmem (by simp)


theorem joinSpace_chars (ds : List (List Char)) :
    ∀ c ∈ joinSpace ds, c = ' ' ∨ ∃ t ∈ ds, c ∈ t := by
  induction ds with
  | nil => simp [joinSpace]
  | cons t ts ih =>
    intro c hc
    cases ts with
    | nil =>
      simp only [joinSpace] at hc
      exact Or.inr ⟨t, by simp, hc⟩
    | cons t2 ts2 =>
      simp only [joinSpace, List.mem_append, List.mem_cons] at hc
      rcases hc with hc | hc | hc
      · exact Or.inr ⟨t, by simp, hc⟩
      · exact Or.inl hc
      · rcases ih c hc with h | ⟨u, hu, hcu⟩
        · exact Or.inl h
        · exact Or.inr ⟨u, List.mem_cons_of_mem t hu, hcu⟩


theorem splitWsAux_good (l : List Char) :
    ∀ acc, (∀ c ∈ acc, jsSpace c = false) →
      ∀ t ∈ splitWsAux l acc, t ≠ [] ∧ ∀ c ∈ t, jsSpace c = false := by
  induction l with
  | nil =>
    intro acc hacc t ht
    simp only [splitWsAux] at ht
    by_cases h : acc = []
    · rw [if_pos h] at ht; simp at ht
    · rw [if_neg h] at ht
      simp only [List.mem_singleton] at ht
      subst ht
      refine ⟨by simpa using h, ?_⟩
      intro c hc
      exact hacc c (List.mem_reverse.mp hc)
  | cons a as ih =>
    intro acc hacc t ht
    simp only [splitWsAux] at ht
    by_cases hsp : jsSpace a = true
    · rw [if_pos hsp] at ht
      by_cases hA : acc = []
      · rw [if_pos hA] at ht
        exact ih [] (by simp) t ht
      · rw [if_neg hA] at ht
        rcases List.mem_cons.mp ht with ht | ht
        · subst ht
          refine ⟨by simpa using hA, ?_⟩
          intro c hc
          exact hacc c (List.mem_reverse.mp hc)
        · exact ih [] (by simp) t ht
    · rw [if_neg hsp] at ht
      refine ih (a :: acc) ?_ t ht
      intro c hc
      rcases List.mem_cons.mp hc with hc | hc
      · subst hc; simpa using hsp
      · exact hacc c hc


theorem splitWsAux_append (t : List Char) :
    ∀ acc rest, (∀ c ∈ t, jsSpace c = false) →
      splitWsAux (t ++ rest) acc = splitWsAux rest (t.reverse ++ acc) := by
  induction t with
  | nil => simp
  | cons c cs ih =>
    intro acc rest h
    have hc : jsSpace c = false := h c (by simp)
    have step : splitWsAux ((c :: cs) ++ rest) acc = splitWsAux (cs ++ rest) (c :: acc) := by
      simp [splitWsAux, hc]
    rw [step, ih (c :: acc) rest (fun x hx => h x (List.mem_cons_of_mem c hx))]
    congr 1
    simp


theorem tokenize_joinSpace (ds : List (List Char))
    (hne : ∀ t ∈ ds, t ≠ []) (hsp : ∀ t ∈ ds, ∀ c ∈ t, jsSpace c = false) :
    tokenize (joinSpace ds) = ds := by
  induction ds with
  | nil => rfl
  | cons t ts ih =>
    have ht1 : t ≠ [] := hne t (by simp)
    have ht2 : ∀ c ∈ t, jsSpace c = false := hsp t (by simp)
    cases ts with
    | nil =>
      show splitWsAux (joinSpace [t]) [] = [t]
      have h0 : joinSpace [t] = t ++ [] := by simp [joinSpace]
      rw [h0, splitWsAux_append t [] [] ht2]
      simp only [splitWsAux, List.append_nil]
      rw [if_neg (by simpa using ht1)]
      simp
    | cons t2 ts2 =>
      show splitWsAux (joinSpace (t :: t2 :: ts2)) [] = t :: t2 :: ts2
      have h0 : joinSpace (t :: t2 :: ts2) = t ++ ' ' :: joinSpace (t2 :: ts2) := rfl
      rw [h0, splitWsAux_append t [] _ ht2]
      simp only [splitWsAux, List.append_nil]
      rw [if_pos (by simp [jsSpace])]
      rw [if_neg (by simpa using ht1)]
      simp only [List.reverse_reverse]
      have ihr := ih (fun u hu => hne u (List.mem_cons_of_mem t hu))
        (fun u hu => hsp u (List.mem_cons_of_mem t hu))
      rw [show splitWsAux (joinSpace (t2 :: ts2)) [] = tokenize (joinSpace (t2 :: ts2)) from rfl, ihr]


theorem splitWsAux_map (f : Char → Char) (hf : ∀ c, jsSpace (f c) = jsSpace c)
    (l : List Char) :
    ∀ acc, splitWsAux (l.map f) (acc.map f) = (splitWsAux l acc).map (List.map f) := by
  induction l with
  | nil =>
    intro acc
    simp only [List.map_nil, splitWsAux]
    by_cases h : acc = []
    · subst h; simp
    · rw [if_neg (by simpa using h), if_neg h]
      simp
  | cons c cs ih =>
    intro acc
    simp only [List.map_cons, splitWsAux, hf c]
    by_cases hsp : jsSpace c = true
    · rw [if_pos hsp, if_pos hsp]
      have h0 := ih []
      simp only [List.map_nil] at h0
      by_cases hA : acc = []
      · subst hA
        simp [h0]
      · rw [if_neg (by simpa using hA), if_neg hA]
        simp [h0]
    · rw [if_neg hsp, if_neg hsp]
      have := ih (c :: acc)
      simpa using this


theorem tokenize_toLowerL (l : List Char) :
    tokenize (toLowerL l) = (tokenize l).map toLowerL := by
  have := splitWsAux_map jsToLower jsSpace_jsToLower l []
  simpa [tokenize, toLowerL] using this


theorem toLowerL_capAux (l : List Char) :
    ∀ b, noUpperL l → toLowerL (capAux b l) = l := by
  induction l with
  | nil => intro b _; rfl
  | cons c cs ih =>
    intro b h
    have hc : isUpperAscii c = false := h c (by simp)
    have hcs : noUpperL cs := fun x hx => h x (List.mem_cons_of_mem c hx)
    simp only [capAux, toLowerL, List.map_cons]
    have hHead : jsToLower (if (!b && jsWordChar c) = true then jsToUpper c else c) = c := by
      by_cases hb : (!b && jsWordChar c) = true
      · rw [if_pos hb]
        exact jsToLower_jsToUpper c hc
      · rw [if_neg hb]
        exact jsToLower_eq_self hc
    rw [hHead]
    have hTail := ih (jsWordChar c) hcs
    simp only [toLowerL] at hTail
    rw [hTail]


theorem isLowerAscii_jsToUpper_of_word (c : Char) (h : jsWordChar c = true) :
    isLowerAscii (jsToUpper c) = false := by
  rcases isLowerAscii_jsToUpper c with h1 | h1
  · exact h1
  · rw [h1]
    by_cases hl : isLowerAscii c = true
    · exfalso
      have hb : 97 ≤ c.toNat ∧ c.toNat ≤ 122 := by simpa [isLowerAscii] using hl
      have : jsToUpper c ≠ c := by
        intro hEq
        have := congrArg Char.toNat hEq
        rw [toNat_jsToUpper, if_pos hl] at this
        omega
      exact this h1
    · simpa using hl


theorem capBoundaryAux_capAux (l : List Char) :
    ∀ b, capBoundaryAux b (capAux b l) = true := by
  induction l with
  | nil => intro b; rfl
  | cons c cs ih =>
    intro b
    simp only [capAux, capBoundaryAux]
    by_cases hb : (!b && jsWordChar c) = true
    · rw [if_pos hb]
      have hw : jsWordChar c = true := (Bool.and_eq_true_iff.mp hb).2
      have h1 : jsWordChar (jsToUpper c) = jsWordChar c := jsWordChar_jsToUpper c
      have h2 : isLowerAscii (jsToUpper c) = false := isLowerAscii_jsToUpper_of_word c hw
      rw [h1]
      simp only [hb, h2]
      simpa using ih (jsWordChar c)
    · rw [if_neg hb]
      have hb2 : (!b && jsWordChar c) = false := by simpa using hb
      simp only [hb2]
      simpa using ih (jsWordChar c)


theorem collapseWsAux_nonspace (t : List Char) :
    ∀ b rest, t ≠ [] → (∀ c ∈ t, jsSpace c = false) →
      collapseWsAux b (t ++ rest) = t ++ collapseWsAux false rest := by
  induction t with
  | nil => intro b rest h _; exact absurd rfl h
  | cons c cs ih =>
    intro b rest _ h
    have hc : jsSpace c = false := h c (by simp)
    have step : collapseWsAux b ((c :: cs) ++ rest) = c :: collapseWsAux false (cs ++ rest) := by
      simp [collapseWsAux, hc]
    rw [step]
    cases cs with
    | nil => simp
    | cons d ds =>
      rw [ih false rest (by simp) (fun x hx => h x (List.mem_cons_of_mem c hx))]
      simp


theorem collapseWs_joinSpace (ds : List (List Char))
    (hne : ∀ t ∈ ds, t ≠ []) (hsp : ∀ t ∈ ds, ∀ c ∈ t, jsSpace c = false) :
    ∀ b, collapseWsAux b (joinSpace ds) = joinSpace ds := by
  induction ds with
  | nil => intro b; rfl
  | cons t ts ih =>
    intro b
    have ht1 : t ≠ [] := hne t (by simp)
    have ht2 : ∀ c ∈ t, jsSpace c = false := hsp t (by simp)
    cases ts with
    | nil =>
      show collapseWsAux b (joinSpace [t]) = joinSpace [t]
      have h0 : joinSpace [t] = t ++ [] := by simp [joinSpace]
      rw [h0, collapseWsAux_nonspace t b [] ht1 ht2]
      rfl
    | cons t2 ts2 =>
      have h0 : joinSpace (t :: t2 :: ts2) = t ++ ' ' :: joinSpace (t2 :: ts2) := rfl
      rw [h0, collapseWsAux_nonspace t b _ ht1 ht2]
      have hstep : collapseWsAux false (' ' :: joinSpace (t2 :: ts2)) =
          ' ' :: collapseWsAux true (joinSpace (t2 :: ts2)) := by
        simp [collapseWsAux, jsSpace]
      rw [hstep]
      rw [ih (fun u hu => hne u (List.mem_cons_of_mem t hu))
        (fun u hu => hsp u (List.mem_cons_of_mem t hu)) true]


theorem trimWs_eq_self (l : List Char)
    (h1 : ∀ c, l.head? = some c → jsSpace c = false)
    (h2 : ∀ c, l.getLast? = some c → jsSpace c = false) :
    trimWs l = l := by
  unfold trimWs
  have hd : l.dropWhile (fun c => jsSpace c) = l := by
    cases l with
    | nil => rfl
    | cons c cs =>
      rw [List.dropWhile_cons_of_neg]
      simp [h1 c rfl]
  rw [hd]
  have hr : l.reverse.dropWhile (fun c => jsSpace c) = l.reverse := by
    cases hrev : l.reverse with
    | nil => rfl
    | cons c cs =>
      rw [List.dropWhile_cons_of_neg]
      have : l.getLast? = some c := by
        rw [← List.head?_reverse, hrev]
        rfl
      simp [h2 c this]
  rw [hr, List.reverse_reverse]


theorem joinSpace_head? (ds : List (List Char))
    (hne : ∀ t ∈ ds, t ≠ []) (hsp : ∀ t ∈ ds, ∀ c ∈ t, jsSpace c = false) :
    ∀ c, (joinSpace ds).head? = some c → jsSpace c = false := by
  intro c hc
  cases ds with
  | nil => simp [joinSpace] at hc
  | cons t ts =>
    have ht1 : t ≠ [] := hne t (by simp)
    have ht2 : ∀ x ∈ t, jsSpace x = false := hsp t (by simp)
    cases t with
    | nil => exact absurd rfl ht1
    | cons a as =>
      have hhead : (joinSpace ((a :: as) :: ts)).head? = some a := by
        cases ts <;> simp [joinSpace]
      rw [hhead] at hc
      injection hc with hc
      subst hc
      exact ht2 _ (by simp)


theorem joinSpace_getLast? (ds : List (List Char))
    (hne : ∀ t ∈ ds, t ≠ []) (hsp : ∀ t ∈ ds, ∀ c ∈ t, jsSpace c = false) :
    ∀ c, (joinSpace ds).getLast? = some c → jsSpace c = false := by
  induction ds with
  | nil => intro c hc; simp [joinSpace] at hc
  | cons t ts ih =>
    intro c hc
    cases ts with
    | nil =>
      have ht2 : ∀ x ∈ t, jsSpace x = false := hsp t (by simp)
      have hmem : c ∈ t := by
        apply List.mem_of_mem_getLast?
        rw [Option.mem_def]
        simpa [joinSpace] using hc
      exact ht2 c hmem
    | cons t2 ts2 =>
      have hjoin : joinSpace (t :: t2 :: ts2) = t ++ ' ' :: joinSpace (t2 :: ts2) := rfl
      rw [hjoin] at hc
      have hne2 : (' ' :: joinSpace (t2 :: ts2) : List Char) ≠ [] := by simp
      rw [List.getLast?_append_of_ne_nil t hne2] at hc
      have hj2ne : joinSpace (t2 :: ts2) ≠ [] := by
        have ht21 : t2 ≠ [] := hne t2 (by simp)
        cases t2 with
        | nil => exact absurd rfl ht21
        | cons a as => cases ts2 <;> simp [joinSpace]
      cases hj2 : joinSpace (t2 :: ts2) with
      | nil => exact absurd hj2 hj2ne
      | cons d rest =>
        rw [hj2, List.getLast?_cons_cons] at hc
        apply ih (fun u hu => hne u (List.mem_cons_of_mem t hu))
          (fun u hu => hsp u (List.mem_cons_of_mem t hu)) c
        rw [hj2]
        exact hc


theorem foldl_removeWholeWord_subset (ws : List String) (l : List Char) :
    ∀ c ∈ ws.foldl (fun t w => removeWholeWord w.toList t) l, c ∈ l := by
  induction ws generalizing l with
  | nil => simp
  | cons w ws ih =>
    intro c hc
    simp only [List.foldl_cons] at hc
    have h1 : c ∈ removeWholeWord w.toList l := ih (removeWholeWord w.toList l) c hc
    exact removeWordFuel_subset w.toList l.length false l c h1


theorem stripSiteTokens_subset (domain : String) (l : List Char) :
    ∀ c ∈ stripSiteTokens domain l, c ∈ l := by
  intro c hc
  simp only [stripSiteTokens] at hc
  split_ifs at hc
  · exact hc
  · exact hc
  · exact hc
  · simp only [replaceSubAll] at hc
    exact replaceSubFuel_subset _ _ _ c hc


theorem noUpperL_removePipe (l : List Char) (h : noUpperL l) :
    noUpperL (removePipeSuffix l) :=
  fun c hc => h c (removePipeSuffix_subset l c hc)


theorem noUpperL_stripSite (domain : String) (l : List Char) (h : noUpperL l) :
    noUpperL (stripSiteTokens domain l) :=
  fun c hc => h c (stripSiteTokens_subset domain l c hc)


theorem noUpperL_boiler (l : List Char) (h : noUpperL l) :
    noUpperL (boilerplateWords.foldl (fun t w => removeWholeWord w.toList t) l) :=
  fun c hc => h c (foldl_removeWholeWord_subset boilerplateWords l c hc)


theorem noUpperL_sepMap (l : List Char) (h : noUpperL l) :
    noUpperL (l.map (fun c => if sepChar c then ' ' else c)) := by
  intro c hc
  rcases List.mem_map.mp hc with ⟨a, ha, rfl⟩
  by_cases hsep : sepChar a = true
  · rw [if_pos hsep]
    decide
  · rw [if_neg hsep]
    exact h a ha


/-- The tail of the pipeline (dedup, join, collapse, trim, capitalize)
produces a string whose whitespace tokens are exactly the deduplicated
tokens up to capitalization, hence pairwise distinct, and which satisfies
the boundary-capitalization property. -/
theorem capJoin_invariants (t5 : List Char) (hno : noUpperL t5) :
    trimWs (collapseWs (joinSpace (dedupTokensAux [] (tokenize t5)))) =
      joinSpace (dedupTokensAux [] (tokenize t5)) ∧
    (tokenize (capitalizeWords
      (trimWs (collapseWs (joinSpace (dedupTokensAux [] (tokenize t5))))))).Nodup ∧
    capBoundaryAux false (capitalizeWords
      (trimWs (collapseWs (joinSpace (dedupTokensAux [] (tokenize t5)))))) = true := by
  have hgood : ∀ u ∈ tokenize t5, u ≠ [] ∧ ∀ c ∈ u, jsSpace c = false :=
    fun u hu => splitWsAux_good t5 [] (by simp) u hu
  set ds := dedupTokensAux [] (tokenize t5) with hds
  have hdsub : ∀ u ∈ ds, u ∈ tokenize t5 := fun u hu => dedupTokensAux_mem [] _ u hu
  have hne : ∀ u ∈ ds, u ≠ [] := fun u hu => (hgood u (hdsub u hu)).1
  have hsp : ∀ u ∈ ds, ∀ c ∈ u, jsSpace c = false := fun u hu => (hgood u (hdsub u hu)).2
  have hcol : collapseWs (joinSpace ds) = joinSpace ds := collapseWs_joinSpace ds hne hsp false
  have htrim : trimWs (joinSpace ds) = joinSpace ds :=
    trimWs_eq_self _ (joinSpace_head? ds hne hsp) (joinSpace_getLast? ds hne hsp)
  have hT6 : trimWs (collapseWs (joinSpace ds)) = joinSpace ds := by
    rw [show collapseWs (joinSpace ds) = joinSpace ds from hcol, htrim]
  refine ⟨hT6, ?_, ?_⟩
  · rw [hT6]
    have hnoJ : noUpperL (joinSpace ds) := by
      intro c hc
      rcases joinSpace_chars ds c hc with h | ⟨u, hu, hcu⟩
      · subst h; decide
      · have hct5 : c ∈ t5 := by
          rcases splitWsAux_chars t5 [] u (hdsub u hu) c hcu with h2 | h2
          · exact h2
          · simp at h2
        exact hno c hct5
    have hlow : toLowerL (capitalizeWords (joinSpace ds)) = joinSpace ds :=
      toLowerL_capAux _ false hnoJ
    have hmap : tokenize (toLowerL (capitalizeWords (joinSpace ds))) =
        (tokenize (capitalizeWords (joinSpace ds))).map toLowerL :=
      tokenize_toLowerL _
    rw [hlow] at hmap
    have htok : tokenize (joinSpace ds) = ds := tokenize_joinSpace ds hne hsp
    rw [htok] at hmap
    have hnd : ((tokenize (capitalizeWords (joinSpace ds))).map toLowerL).Nodup := by
      rw [← hmap]
      exact dedupTokensAux_nodup [] (tokenize t5)
    exact List.Nodup.of_map _ hnd
  · rw [hT6]
    exact capBoundaryAux_capAux _ false


/-- Invariants of every non-null normalizeCore output: length at least 3,
pairwise-distinct whitespace tokens, and boundary capitalization. -/
theorem normalizeCore_some_invariants (t5 : List Char) (hno : noUpperL t5) (t : String)
    (h : normalizeCore t5 = some t) :
    3 ≤ t.length ∧ (titleTokens t).Nodup ∧ capBoundaryOk t = true := by
  rcases capJoin_invariants t5 hno with ⟨hT6, hnd, hcap⟩
  unfold normalizeCore at h
  dsimp only at h
  split_ifs at h with h1 h2
  rw [← Option.some.inj h]
  refine ⟨?_, ?_, ?_⟩
  · exact Nat.not_lt.mp h2
  · exact hnd
  · exact hcap


/-- Invariants of every non-null normalizeTitle output: length at least 3,
pairwise-distinct whitespace tokens, and boundary capitalization.  Shared by
the claims about the normalizer. -/
theorem normalizeTitle_some_invariants (raw domain t : String)
    (h : normalizeTitle raw domain = some t) :
    3 ≤ t.length ∧ (titleTokens t).Nodup ∧ capBoundaryOk t = true := by
  unfold normalizeTitle at h
  by_cases hraw : raw = ""
  · rw [if_pos hraw] at h; cases h
  · rw [if_neg hraw] at h
    dsimp only at h
    exact normalizeCore_some_invariants _
      (noUpperL_sepMap _ (noUpperL_boiler _
        (noUpperL_stripSite domain _ (noUpperL_removePipe _ (noUpperL_toLowerL _))))) t h


/-! ### Helper lemmas about addItem and jsOrStr -/
theorem addItem_creates (content bucket : String) (it im : Option String)
    (st : AppState) (t : Nat) (id : String)
    (hfind : st.items.find? (fun i => i.url = content && i.bucketId = bucket) = none) :
    (addItem content bucket "url" it im st t id).2 = id ∧
    (addItem content bucket "url" it im st t id).1.pendingUrls = content :: st.pendingUrls ∧
    ∃ ni : Item, (addItem content bucket "url" it im st t id).1.items = ni :: st.items ∧
      ni.url = content ∧ ni.bucketId = bucket ∧ ni.id = id ∧ ni.createdAt = t ∧
      ni.metaAttempts = 0 := by
  simp only [addItem]
  simp [hfind]


theorem jsOrStr_assoc (a b c : Option String) :
    jsOrStr (jsOrStr a b) c = jsOrStr a (jsOrStr b c) := by
  rcases a with _ | s
  · rfl
  · by_cases hs : s = ""
    · simp [jsOrStr, hs]
    · simp [jsOrStr, hs]


/-! ### Claim theorems -/
/-- C1: once an item's userEditedTitle (respectively userEditedImage) flag
is true, no successful enrichment completion — cache branch, fresh
resolution, and also the failure branch — writes that item's title
(respectively image): after applying the update of any enrichUrlMetadata
run, the field retains its user-set value. -/
theorem userEditedFields_survive_enrichment (cacheEntry : Option MetaPayload)
    (fetchResult : Option (Option String × Option String)) (hostname : String)
    (i : Item) (inferred : Option String) :
    (i.userEditedTitle = true →
      (applyUpdate i
        (enrichStep cacheEntry fetchResult hostname (some i) inferred).update).title = i.title) ∧
    (i.userEditedImage = true →
      (applyUpdate i
        (enrichStep cacheEntry fetchResult hostname (some i) inferred).update).image = i.image) := by
  constructor
  · intro h
    rcases cacheEntry with _ | entry
    · rcases fetchResult with _ | ⟨rt, ri⟩
      · simp [enrichStep, applyUpdate]
      · simp [enrichStep, successUpdate, shouldSetTitle, applyUpdate, h]
    · simp [enrichStep, successUpdate, shouldSetTitle, applyUpdate, h]
  · intro h
    rcases cacheEntry with _ | entry
    · rcases fetchResult with _ | ⟨rt, ri⟩
      · simp [enrichStep, applyUpdate]
      · simp [enrichStep, successUpdate, shouldSetImage, applyUpdate, h]
    · simp [enrichStep, successUpdate, shouldSetImage, applyUpdate, h]


/-- Witness for C1 at a concrete user-edited item, a cache hit and a fresh
resolution payload. -/
theorem userEditedFields_survive_enrichment_witness :
    (applyUpdate editedItem
      (enrichStep (some { title := some "T", image := some "I", site := "s" })
        none "ex.com" (some editedItem) none).update).title = editedItem.title ∧
    (applyUpdate editedItem
      (enrichStep none (some (some "T", some "I"))
        "ex.com" (some editedItem) none).update).image = editedItem.image :=
  ⟨(userEditedFields_survive_enrichment
      (some { title := some "T", image := some "I", site := "s" }) none
      "ex.com" editedItem none).1 rfl,
   (userEditedFields_survive_enrichment none (some (some "T", some "I"))
      "ex.com" editedItem none).2 rfl⟩


/-- C2: two addItem calls for the identical URL into the same bucket within
10 seconds of each other persist exactly one item for that URL in that
bucket; the second call returns the first item's id and leaves the state
unchanged. -/
theorem addItem_same_bucket_duplicate_coalesced (content bucket : String)
    (it1 im1 it2 im2 : Option String) (st0 : AppState) (t1 t2 : Nat) (id1 id2 : String)
    (hnone : ∀ i ∈ st0.items, ¬(i.url = content ∧ i.bucketId = bucket))
    (ht : t2 < t1 + 10000) :
    (addItem content bucket "url" it2 im2
        (addItem content bucket "url" it1 im1 st0 t1 id1).1 t2 id2).1 =
      (addItem content bucket "url" it1 im1 st0 t1 id1).1 ∧
    (addItem content bucket "url" it2 im2
        (addItem content bucket "url" it1 im1 st0 t1 id1).1 t2 id2).2 = id1 ∧
    ((addItem content bucket "url" it2 im2
        (addItem content bucket "url" it1 im1 st0 t1 id1).1 t2 id2).1.items.filter
      (fun i => i.url = content && i.bucketId = bucket)).length = 1 := by
  have hfind : st0.items.find? (fun i => i.url = content && i.bucketId = bucket) = none := by
    rw [List.find?_eq_none]
    intro x hx
    simpa using hnone x hx
  rcases addItem_creates content bucket it1 im1 st0 t1 id1 hfind with
    ⟨hid, hpend, ni, hitems, hurl, hbucket, hnid, hcreated, hatt⟩
  set st1 := (addItem content bucket "url" it1 im1 st0 t1 id1).1 with hst1
  have hmem : content ∈ st1.pendingUrls := by
    rw [hpend]; simp
  have hfind1 : st1.items.find? (fun i => i.url = content && i.bucketId = bucket) = some ni := by
    rw [hitems]
    rw [List.find?_cons_of_pos]
    simp [hurl, hbucket]
  have hstep : addItem content bucket "url" it2 im2 st1 t2 id2 = (st1, ni.id) := by
    simp only [addItem]
    simp [hmem, hfind1]
  refine ⟨by rw [hstep], by rw [hstep, hnid], ?_⟩
  rw [hstep]
  show (st1.items.filter _).length = 1
  rw [hitems]
  rw [List.filter_cons_of_pos]
  · have hnil : st0.items.filter (fun i => i.url = content && i.bucketId = bucket) = [] := by
      rw [List.filter_eq_nil_iff]
      intro x hx
      simpa using hnone x hx
    rw [hnil]
    rfl
  · simp [hurl, hbucket]


/-- Witness for C2: two concrete captures of the same URL into bucket b1,
5 seconds apart, starting from the empty state. -/
theorem addItem_same_bucket_duplicate_coalesced_witness :
    ((addItem "https://ex.com/a" "b1" "url" none none
        (addItem "https://ex.com/a" "b1" "url" none none emptyState 1000 "id1").1
        5000 "id2").1.items.filter
      (fun i => i.url = "https://ex.com/a" && i.bucketId = "b1")).length = 1 ∧
    (addItem "https://ex.com/a" "b1" "url" none none
        (addItem "https://ex.com/a" "b1" "url" none none emptyState 1000 "id1").1
        5000 "id2").2 = "id1" :=
  have h := addItem_same_bucket_duplicate_coalesced "https://ex.com/a" "b1"
    none none none none emptyState 1000 5000 "id1" "id2"
    (by simp [emptyState]) (by omega)
  ⟨h.2.2, h.2.1⟩


/-- C3: a failed resolution sets metaStatus to failed, increments
metaAttempts by one, and schedules an automatic retry after 2000ms times the
new attempt count exactly while that count is below 3; starting from a fresh
item the automatic retries fire after 2000ms and 4000ms, there is no fourth
automatic attempt, and metaAttempts ends at 3. -/
theorem enrich_failure_backoff_and_cap (hostname : String) (inferred : Option String)
    (i : Item) (k : Nat) (h0 : i.metaAttempts = 0) :
    (∀ j : Item, applyUpdate j (enrichStep none none hostname (some j) inferred).update =
        { j with metaStatus := "failed", metaAttempts := j.metaAttempts + 1 } ∧
      (enrichStep none none hostname (some j) inferred).retryDelay =
        (if j.metaAttempts + 1 < 3 then some (2000 * (j.metaAttempts + 1)) else none)) ∧
    autoRetryRun hostname inferred (k + 3) i =
      ({ i with metaStatus := "failed", metaAttempts := 3 }, [2000, 4000]) := by
  constructor
  · intro j
    constructor
    · simp [enrichStep, applyUpdate]
    · simp [enrichStep]
  · have h3 : k + 3 = (k + 2) + 1 := by omega
    have h2 : k + 2 = (k + 1) + 1 := by omega
    rw [h3]
    simp [autoRetryRun, enrichStep, applyUpdate, h0, h2]


/-- Witness for C3 at a concrete fresh pending item: the two automatic
backoff delays and the final attempt count. -/
theorem enrich_failure_backoff_and_cap_witness :
    autoRetryRun "ex.com" none (0 + 3) pendingItem =
      ({ pendingItem with metaStatus := "failed", metaAttempts := 3 }, [2000, 4000]) :=
  (enrich_failure_backoff_and_cap "ex.com" none pendingItem 0 rfl).2


/-- C4: with a cache entry present for the URL, enrichUrlMetadata performs
no network fetch (its outcome is independent of any fetch result), marks the
item done, and computes the title and image writes through the same
per-field merge guards as a fresh resolution carrying the same payload. -/
theorem enrich_cache_hit_short_circuits (entry : MetaPayload)
    (fr : Option (Option String × Option String))
    (hostname : String) (cur : Option Item) (inferred : Option String) :
    (enrichStep (some entry) fr hostname cur inferred).didFetch = false ∧
    enrichStep (some entry) fr hostname cur inferred =
      enrichStep (some entry) none hostname cur inferred ∧
    (enrichStep (some entry) fr hostname cur inferred).update.metaStatus = some "done" ∧
    (enrichStep (some entry) fr hostname cur inferred).update.title =
      (enrichStep none (some (entry.title, entry.image)) hostname cur inferred).update.title ∧
    (enrichStep (some entry) fr hostname cur inferred).update.image =
      (enrichStep none (some (entry.title, entry.image)) hostname cur inferred).update.image := by
  refine ⟨rfl, rfl, rfl, ?_, ?_⟩
  · simp [enrichStep, successUpdate]
  · simp [enrichStep, successUpdate]


/-- C5 counterexample: the claimed uniform priority order og:title,
twitter:title, title tag, description does not hold on every path.  The
client's direct-fetch extractor never reads twitter:title (a page exposing
only twitter:title yields no raw title there), and neither the proxy server
nor the read-proxy fallback falls back to the description. -/
theorem title_priority_claim_counterexample :
    rawTitleDirect none (some "T") none none = none ∧
    rawTitleSpecOrder none (some "T") none none = some "T" ∧
    rawTitleProxy none none none (some "D") = none ∧
    rawTitleJina none none none (some "D") = none ∧
    rawTitleSpecOrder none none none (some "D") = some "D" := by
  decide


/-- C5 amended: each extraction path selects the first truthy candidate of
its own priority list — og:title, title tag, description for the direct
fetch; og:title, title tag for the read-proxy fallback; og:title,
twitter:title, title tag (normalized to null) for the proxy server — rather
than one uniform four-step order. -/
theorem title_priority_per_path (og tw titleTag desc : Option String) :
    rawTitleDirect og tw titleTag desc = firstTruthy [og, titleTag, desc] ∧
    rawTitleJina og tw titleTag desc = firstTruthy [og, titleTag] ∧
    rawTitleProxy og tw titleTag desc = firstTruthy [og, tw, titleTag, none] ∧
    rawTitleSpecOrder og tw titleTag desc = firstTruthy [og, tw, titleTag, desc] := by
  refine ⟨?_, rfl, ?_, ?_⟩
  · show jsOrStr (jsOrStr og titleTag) desc = jsOrStr og (jsOrStr titleTag desc)
    exact jsOrStr_assoc og titleTag desc
  · show jsOrStr (jsOrStr (jsOrStr og tw) titleTag) none =
      jsOrStr og (jsOrStr tw (jsOrStr titleTag none))
    rw [jsOrStr_assoc, jsOrStr_assoc]
  · show jsOrStr (jsOrStr (jsOrStr og tw) titleTag) desc =
      jsOrStr og (jsOrStr tw (jsOrStr titleTag desc))
    rw [jsOrStr_assoc, jsOrStr_assoc]


/-- C6 counterexample: normalizeTitle can return a word whose first letter
stays lowercase — the boundary regex uppercases the first word character of
a run, and for the input 4abc that character is the digit, so the first
letter a is left lowercase while the output passes the length guard. -/
theorem normalizeTitle_first_letter_counterexample :
    normalizeTitle "4abc" "" = some "4abc" ∧ firstLetterCapClaim "4abc" = false := by
  decide


/-- C6 amended: every non-null normalizeTitle output has length at least 3,
contains no duplicate whitespace-delimited tokens, and is capitalized at
word-character-run boundaries (a word-opening word character is never a
lowercase ASCII letter); a word whose first word character is a digit or
underscore keeps its letters lowercase. -/
theorem normalizeTitle_output_wellformed (raw domain t : String)
    (h : normalizeTitle raw domain = some t) :
    3 ≤ t.length ∧ (titleTokens t).Nodup ∧ capBoundaryOk t = true :=
  normalizeTitle_some_invariants raw domain t h


/-- Witness for C6 at a concrete input with a duplicate token. -/
theorem normalizeTitle_output_wellformed_witness :
    3 ≤ ("Hello World" : String).length ∧ (titleTokens "Hello World").Nodup ∧
      capBoundaryOk "Hello World" = true :=
  normalizeTitle_output_wellformed "hello world hello" "" "Hello World" (by decide)


/-- C7 counterexample: the site label cart (from domain cart.com) is
stripped even strictly inside the longer word cartoon, because the source
builds the regex without word boundaries; the spec-worded whole-word variant
keeps the word intact. -/
theorem normalizeTitle_site_substring_counterexample :
    normalizeTitle "cartoon network" "cart.com" = some "Oon Network" ∧
    normalizeTitleWholeWord "cartoon network" "cart.com" = some "Cartoon Network" := by
  decide


/-- C7 amended: normalizeTitle strips the domain's primary label as a plain
unbounded substring — every occurrence, also strictly inside a longer word,
is removed — while a regex-construction failure from special characters in
the label (such as c++) skips the stripping step entirely. -/
theorem normalizeTitle_site_substring_behavior :
    normalizeTitle "xcarty hello" "cart.com" = some "Xy Hello" ∧
    normalizeTitle "c++ tutorial" "c++.com" = some "C++ Tutorial" := by
  decide


/-- C8 counterexample: re-running normalizeTitle on its own output can fall
below the length guard and return null — stripping the site label cart from
carcartt creates a fresh occurrence of cart, so the first run returns Cart
and the second run strips it to the empty string. -/
theorem normalizeTitle_rerun_counterexample :
    normalizeTitle "carcartt" "cart.com" = some "Cart" ∧
    normalizeTitle "Cart" "cart.com" = none := by
  decide


/-- C8 amended: the second run may return null (see the counterexample) or a
different value, but whenever it does return a value, that value again
satisfies the length guard and the boundary-capitalization invariants (and
has no duplicate tokens). -/
theorem normalizeTitle_rerun_wellformed (x d t t2 : String)
    (h1 : normalizeTitle x d = some t) (h2 : normalizeTitle t d = some t2) :
    3 ≤ t2.length ∧ (titleTokens t2).Nodup ∧ capBoundaryOk t2 = true :=
  normalizeTitle_some_invariants t d t2 h2


/-- Witness for C8 at an input whose normalization is stable under
re-running. -/
theorem normalizeTitle_rerun_wellformed_witness :
    3 ≤ ("Hello World" : String).length ∧ (titleTokens "Hello World").Nodup ∧
      capBoundaryOk "Hello World" = true :=
  normalizeTitle_rerun_wellformed "hello world" "" "Hello World" "Hello World"
    (by decide) (by decide)


/-- C9: the image probe never rejects — its outcome is a total function of
the first settling event — and it resolves true exactly when that event is a
successful load within the deadline whose natural dimensions meet both
minimums; the timeout and error paths resolve false. -/
theorem loadImageWithTimeout_outcomes (ev : ImgEvent) (minW minH : Nat) :
    (loadImageWithTimeout ev minW minH = true ↔
      ∃ w h, ev = ImgEvent.loaded w h ∧ minW ≤ w ∧ minH ≤ h) ∧
    loadImageWithTimeout ImgEvent.timeoutFired minW minH = false ∧
    loadImageWithTimeout ImgEvent.loadError minW minH = false := by
  refine ⟨?_, rfl, rfl⟩
  cases ev with
  | timeoutFired => simp [loadImageWithTimeout]
  | loadError => simp [loadImageWithTimeout]
  | loaded w h =>
    simp only [loadImageWithTimeout]
    constructor
    · intro hb
      rcases Bool.and_eq_true_iff.mp hb with ⟨hw, hh⟩
      exact ⟨w, h, rfl, of_decide_eq_true hw, of_decide_eq_true hh⟩
    · rintro ⟨w2, h2, heq, hw, hh⟩
      injection heq with e1 e2
      subst e1; subst e2
      simp [hw, hh]


/-- C10: duplicate detection in addItem is scoped to a single bucket —
whenever no item with the target URL exists in the target bucket, a new item
is created there, regardless of the pending-set and of identical URLs saved
in other buckets however recently. -/
theorem addItem_duplicate_scope_is_bucket (st : AppState) (content bucket : String)
    (it im : Option String) (t : Nat) (id : String)
    (hnone : ∀ i ∈ st.items, ¬(i.url = content ∧ i.bucketId = bucket)) :
    (addItem content bucket "url" it im st t id).2 = id ∧
    (addItem content bucket "url" it im st t id).1.items.length = st.items.length + 1 ∧
    ∃ ni : Item, (addItem content bucket "url" it im st t id).1.items = ni :: st.items ∧
      ni.bucketId = bucket ∧ ni.url = content ∧ ni.id = id := by
  have hfind : st.items.find? (fun i => i.url = content && i.bucketId = bucket) = none := by
    rw [List.find?_eq_none]
    intro x hx
    simpa using hnone x hx
  rcases addItem_creates content bucket it im st t id hfind with
    ⟨hid, hpend, ni, hitems, hurl, hbucket, hnid, hcreated, hatt⟩
  exact ⟨hid, by rw [hitems]; rfl, ni, hitems, hbucket, hurl, hnid⟩


/-- Witness for C10: the same URL sits in bucket b1 (recently created and in
the pending set), and adding it to bucket b2 creates a new item. -/
theorem addItem_duplicate_scope_is_bucket_witness :
    (addItem "https://ex.com/a" "b2" "url" none none otherBucketState 1000000 "id9").2 = "id9" ∧
    (addItem "https://ex.com/a" "b2" "url" none none
      otherBucketState 1000000 "id9").1.items.length = otherBucketState.items.length + 1 :=
  have h := addItem_duplicate_scope_is_bucket otherBucketState "https://ex.com/a" "b2"
    none none 1000000 "id9" (by decide)
  ⟨h.1, h.2.1⟩


end Captureit
